import Mathlib

set_option maxHeartbeats 1000000

attribute [local semireducible] Rat.add Rat.mul

namespace CodeArchaeology

/-! Shallow embedding of the client-side core of the code-archaeology
dashboard: the persisted analysis-session store (`src/lib/analysisStorage.ts`),
the run-lifecycle poller (`src/lib/useAnalysisRun.ts`), the fragility metric
derivations (fragility page), the commit taxonomy resolver (commits page),
the hotspot treemap construction (overview page) and the treemap hit test
(`TreemapChart`). JS numbers are modelled as rationals (`ℚ`); JS strings as
Lean strings. -/

/-! ## Session store (`src/lib/analysisStorage.ts`) -/

/-- `AnalysisState` from `analysisStorage.ts`: four independently nullable
string fields. -/
structure AnalysisState where
  repoId : Option String
  runId : Option String
  repoUrl : Option String
  branch : Option String
deriving DecidableEq, Repr

/-- A `Partial<AnalysisState>`: each field may be absent (outer `none`) or
present with a `string | null` value. -/
structure AnalysisStatePatch where
  repoId : Option (Option String)
  runId : Option (Option String)
  repoUrl : Option (Option String)
  branch : Option (Option String)
deriving DecidableEq, Repr

/-- `defaultState` from `analysisStorage.ts`: all four fields `null`. -/
def defaultState : AnalysisState :=
  { repoId := none, runId := none, repoUrl := none, branch := none }

/-- JS object spread `{ ...s, ...p }`: a field present in the patch (even with
a `null` value) overrides the base field. -/
def mergeState (s : AnalysisState) (p : AnalysisStatePatch) : AnalysisState :=
  { repoId := p.repoId.getD s.repoId
    runId := p.runId.getD s.runId
    repoUrl := p.repoUrl.getD s.repoUrl
    branch := p.branch.getD s.branch }

/-- The persisted `localStorage` slot content, abstracted at the JSON level:
`JSON.parse` either fails on the raw string (`corrupt`, which also covers the
empty string rejected by the `!raw` guard) or yields a partial-state object
(`fields`).  A parsed value that is not an object spreads as the empty patch
and is represented by `valid` of the all-absent patch. -/
inductive StoredDoc where
  | corrupt (raw : String)
  | valid (fields : AnalysisStatePatch)
deriving DecidableEq, Repr

/-- `loadAnalysisState`: absent slot or unparsable slot yields the default
all-null session; otherwise `{ ...defaultState, ...parsed }`.  Total by
construction (the source catches the parse exception). -/
def loadAnalysisState (slot : Option StoredDoc) : AnalysisState :=
  match slot with
  | none => defaultState
  | some (.corrupt _) => defaultState
  | some (.valid p) => mergeState defaultState p

/-- `JSON.stringify` of a full session, viewed back through `JSON.parse`:
every field is present. -/
def toPatch (s : AnalysisState) : AnalysisStatePatch :=
  { repoId := some s.repoId, runId := some s.runId
    repoUrl := some s.repoUrl, branch := some s.branch }

/-- `saveAnalysisState`: re-reads the latest persisted slot, merges the update
into it, writes the merged result back, and returns it. -/
def saveAnalysisState (slot : Option StoredDoc) (update : AnalysisStatePatch) :
    AnalysisState × Option StoredDoc :=
  let current := loadAnalysisState slot
  let next := mergeState current update
  (next, some (.valid (toPatch next)))

/-- `clearAnalysisState`: removes the slot. -/
def clearAnalysisState (_slot : Option StoredDoc) : Option StoredDoc := none

/-! ## Run lifecycle tracker (`src/lib/useAnalysisRun.ts`) -/

/-- The four server-reported run statuses. -/
inductive RunStatus where
  | queued
  | running
  | succeeded
  | failed
deriving DecidableEq, Repr

/-- `AnalysisRun` as delivered by `GET /api/analysis/:id`. -/
structure AnalysisRun where
  id : String
  status : RunStatus
  created_at : String
  started_at : Option String
  completed_at : Option String
  error_message : Option String
deriving DecidableEq, Repr

/-- `status === "succeeded" || status === "failed"`. -/
def RunStatus.isTerminal : RunStatus → Bool
  | .succeeded => true
  | .failed => true
  | _ => false

/-- `data.error_message || "Analysis failed."` — the empty string is falsy in
JS, so it also falls back. -/
def fallbackErrorMessage (m : Option String) : String :=
  match m with
  | some s => if s = "" then "Analysis failed." else s
  | none => "Analysis failed."

/-- State owned by one run of the `useAnalysisRun` effect: the `run`/`error`
React state cells, the `timer` handle (`timerOn` = a live interval), and the
closure's `active` flag. -/
structure TrackerState where
  run : Option AnalysisRun
  error : Option String
  timerOn : Bool
  active : Bool
deriving DecidableEq, Repr

/-- State installed when the effect (re)subscribes for a run id: on a null id
the effect resets `run`/`error` and starts no timer; on a non-null id it
issues the first poll immediately and installs the interval. -/
def subscribeTracker (runId : Option String) : TrackerState :=
  match runId with
  | none => { run := none, error := none, timerOn := false, active := false }
  | some _ => { run := none, error := none, timerOn := true, active := true }

/-- The effect cleanup: `active = false; clearInterval(timer)`. -/
def cleanupTracker (s : TrackerState) : TrackerState :=
  { s with active := false, timerOn := false }

/-- The body of `poll` resolving one status request: a rejected request
(`Except.error`) surfaces a non-fatal error message; a resolved one adopts the
returned run verbatim, surfaces the (fallback) error message on a `failed`
status, and clears the interval on a terminal status.  A closure whose
`active` flag was cleared ignores the resolution entirely. -/
def poll (s : TrackerState) (res : Except String AnalysisRun) : TrackerState :=
  if s.active = false then s
  else
    match res with
    | .error e => { s with error := some e }
    | .ok data =>
      let s1 := { s with run := some data }
      let s2 :=
        if data.status = .failed then
          { s1 with error := some (fallbackErrorMessage data.error_message) }
        else s1
      if data.status.isTerminal then { s2 with timerOn := false } else s2

/-- Drives the poll loop over a list of response resolutions: a status fetch
is issued for the next response exactly when the interval is still installed;
its resolution is processed by `poll`.  Returns the final state and the number
of fetches issued. -/
def runPolls : TrackerState → List (Except String AnalysisRun) → TrackerState × Nat
  | s, [] => (s, 0)
  | s, r :: rs =>
    if s.timerOn then
      let out := runPolls (poll s r) rs
      (out.1, out.2 + 1)
    else (s, 0)

/-- The `refetchInterval` callback of the react-query variant of
`useAnalysisRun`: returns `false` (here `none`) once the last observed status
is terminal, else the poll interval. -/
def refetchIntervalDecision (pollMs : Nat) (status : Option RunStatus) : Option Nat :=
  match status with
  | some st => if st.isTerminal then none else some pollMs
  | none => some pollMs

/-! ## Fragility derivations (fragility page) -/

/-- `const pick = (ratio) => sorted[Math.floor((sorted.length - 1) * ratio)] ?? 0`.
Only invoked on a non-empty `sorted` (the source guards the empty sample), so
the `length - 1` natural subtraction agrees with the JS arithmetic. -/
def fragPick (sorted : List ℚ) (r : ℚ) : ℚ :=
  let index := (⌊((sorted.length - 1 : ℕ) : ℚ) * r⌋).toNat
  sorted.getD index 0

/-- The summary record returned by the `fragilityStats` memo. -/
structure FragilityStats where
  total : Nat
  min : ℚ
  max : ℚ
  median : ℚ
  p90 : ℚ
deriving DecidableEq, Repr

/-- `fragilityStats`: `null` (here `none`) for the empty sample; otherwise
nearest-rank min/max/median/p90 over the ascending-sorted sample. -/
def fragilityStats (values : List ℚ) : Option FragilityStats :=
  if values.length = 0 then none
  else
    let sorted := values.insertionSort (· ≤ ·)
    some
      { total := sorted.length
        min := sorted.getD 0 0
        max := sorted.getD (sorted.length - 1) 0
        median := fragPick sorted (mkRat 1 2)
        p90 := fragPick sorted (mkRat 9 10) }

/-- One entry of the `bands` configuration array. -/
structure FragilityBand where
  label : String
  min : ℚ
  max : ℚ
  color : String
deriving DecidableEq, Repr

/-- One per-band result `{ ...band, count, percent }`. -/
structure FragilityBandResult where
  label : String
  min : ℚ
  max : ℚ
  color : String
  count : Nat
  percent : ℚ
deriving DecidableEq, Repr

/-- The four half-open fragility bands.  The decimal literals of the source
are the exact rationals `1/4`, `1/2`, `3/4`, `101/100` (written with `mkRat`
so that they evaluate inside the kernel). -/
def fragilityBandDefs : List FragilityBand :=
  [{ label := "Low (0-0.25)", min := 0, max := mkRat 1 4, color := "var(--signal)" },
   { label := "Guarded (0.25-0.5)", min := mkRat 1 4, max := mkRat 1 2,
     color := "var(--accent)" },
   { label := "High (0.5-0.75)", min := mkRat 1 2, max := mkRat 3 4,
     color := "var(--warning)" },
   { label := "Severe (0.75-1.0)", min := mkRat 3 4, max := mkRat 101 100,
     color := "var(--risk)" }]

/-- `fragilityBands`: empty list for the empty sample; otherwise each band is
paired with the count of values `v` with `band.min ≤ v < band.max` and the
percentage `count / total * 100`. -/
def fragilityBands (values : List ℚ) : List FragilityBandResult :=
  if values.length = 0 then []
  else
    let total := values.length
    fragilityBandDefs.map fun band =>
      let count := (values.filter fun v => decide (band.min ≤ v ∧ v < band.max)).length
      let percent := if total ≠ 0 then ((count : ℚ) / (total : ℚ)) * 100 else 0
      { label := band.label, min := band.min, max := band.max, color := band.color
        count := count, percent := percent }

/-! ## Commit taxonomy (commits page) -/

/-- A commit row as consumed by `deriveClassification`: the free-text message
and the stored classification (`?.` in the source allows a nullish value). -/
structure CommitRow where
  message : String
  classification : Option String
deriving DecidableEq, Repr

/-- `CLASSIFICATION_NORMALIZE`: the own entries of the legacy synonym record
(bracket lookup on the record, including the prototype chain, is
`recordLookup`). -/
def CLASSIFICATION_NORMALIZE : String → Option String
  | "bugfix" => some "fix"
  | "feature" => some "feat"
  | "maintenance" => some "build"
  | _ => none

/-- `PREFIX_CLASSIFICATION`: the own entries of the conventional-commit type
record (bracket lookup on the record, including the prototype chain, is
`recordLookup`). -/
def prefixClassificationTable : String → Option String
  | "feat" => some "feat"
  | "feature" => some "feat"
  | "fix" => some "fix"
  | "bugfix" => some "fix"
  | "docs" => some "docs"
  | "doc" => some "docs"
  | "style" => some "style"
  | "styles" => some "style"
  | "refactor" => some "refactor"
  | "perf" => some "perf"
  | "test" => some "test"
  | "tests" => some "test"
  | "build" => some "build"
  | "ci" => some "ci"
  | "revert" => some "revert"
  | "chore" => some "chore"
  | _ => none

/-- `toLowerCase()`, character-wise (the inputs of interest are ASCII, where
the JS and per-character lowercase maps agree). -/
def toLowerString (s : String) : String := String.mk (s.data.map Char.toLower)

/-- JS `\w` over the (already lowercased) ASCII message. -/
def isWordChar (c : Char) : Bool := c.isAlphanum || c = '_'

/-- Matches the part of `/^(\w+)(?:\([^)]+\))?(?:!)?:/` after the captured
word: an optional parenthesised scope (at least one non-`)` character, then
`)`; if it cannot match, the optional group is skipped), an optional `!`, then
a mandatory `:`. -/
def regexTailMatches (rest : List Char) : Bool :=
  let afterParen :=
    match rest with
    | '(' :: tail =>
      let inner := tail.takeWhile fun c => c != ')'
      if inner.isEmpty then rest
      else
        match tail.drop inner.length with
        | ')' :: tail2 => tail2
        | _ => rest
    | _ => rest
  let afterBang :=
    match afterParen with
    | '!' :: t => t
    | _ => afterParen
  match afterBang with
  | ':' :: _ => true
  | _ => false

/-- `message.match(CONVENTIONAL_PREFIX)`: the captured `\w+` group when the
anchored pattern matches, else `none`.  The `\w+` run is maximal (no word
character can begin the rest of the pattern, so the regex cannot succeed by
backtracking into a shorter word). -/
def conventionalCommitType (msg : String) : Option String :=
  let cs := msg.data
  let word := cs.takeWhile isWordChar
  if word.isEmpty then none
  else if regexTailMatches (cs.drop word.length) then some (String.mk word)
  else none

/-- What a JS bracket lookup on a plain `Record<string, string>` literal can
produce: one of the record's own string entries, a truthy non-string member
inherited from `Object.prototype`, or `undefined`. -/
inductive JsLookup where
  | ownString (s : String)
  | inherited
  | absent
deriving DecidableEq, Repr

/-- The property names of `Object.prototype`: a plain object literal inherits
a (truthy, non-string, non-nullish) member under each of these keys. -/
def objectPrototypeKeys : List String :=
  ["constructor", "hasOwnProperty", "isPrototypeOf", "propertyIsEnumerable",
   "toLocaleString", "toString", "valueOf", "__defineGetter__", "__defineSetter__",
   "__lookupGetter__", "__lookupSetter__", "__proto__"]

/-- `table[key]` on a plain object literal: an own entry wins; otherwise the
lookup walks the prototype chain and finds the inherited `Object.prototype`
member for its keys; otherwise `undefined`. -/
def recordLookup (own : String → Option String) (key : String) : JsLookup :=
  match own key with
  | some v => .ownString v
  | none => if key ∈ objectPrototypeKeys then .inherited else .absent

/-- A value the classification code can hold: a string, or the truthy
non-string object leaked from the prototype chain by a record lookup. -/
inductive JsVal where
  | str (s : String)
  | obj
deriving DecidableEq, Repr

/-- `CLASSIFICATION_NORMALIZE[stored] ?? stored`, where `stored` is the
classification after lowercasing and nullish fallback to `"unknown"`: an own
entry or the inherited prototype member is non-nullish and kept; an absent
key falls back to `stored`. -/
def storedNormalizedVal (commit : CommitRow) : JsVal :=
  let stored := (commit.classification.map toLowerString).getD "unknown"
  match recordLookup CLASSIFICATION_NORMALIZE stored with
  | .ownString v => .str v
  | .inherited => .obj
  | .absent => .str stored

/-- `deriveClassification`: return `normalized` whenever it is not the string
`"unknown"` (a non-string inherited object also passes `!== "unknown"`);
otherwise look the conventional-commit type of the lowercased message up in
`PREFIX_CLASSIFICATION` and return the mapped value if truthy (a non-empty
own string, or an inherited prototype object); otherwise fall back to
`normalized` (`"unknown"`). -/
def deriveClassification (commit : CommitRow) : JsVal :=
  let normalized := storedNormalizedVal commit
  if normalized ≠ JsVal.str "unknown" then normalized
  else
    match conventionalCommitType (toLowerString commit.message) with
    | some w =>
      match recordLookup prefixClassificationTable w with
      | .ownString m => if m ≠ "" then .str m else normalized
      | .inherited => .obj
      | .absent => normalized
    | none => normalized

/-- The category keys of `CLASSIFICATION_LABELS` other than `"unknown"`: the
known normalized categories. -/
def knownCategories : List String :=
  ["feat", "fix", "docs", "style", "refactor", "perf", "test", "build", "ci",
   "revert", "chore"]

/-- The resolution the claim describes, following its words: (1) trust a
known stored category when present, else (2) map a conventional-commit prefix
of the message through the fixed table, else (3) return `"unknown"`.  Stated
for comparison with `deriveClassification`, the resolution the code
implements. -/
def deriveClassificationClaimed (commit : CommitRow) : String :=
  let stored := (commit.classification.map toLowerString).getD "unknown"
  let normalized := (CLASSIFICATION_NORMALIZE stored).getD stored
  if normalized ∈ knownCategories then normalized
  else
    match conventionalCommitType (toLowerString commit.message) with
    | some w =>
      match prefixClassificationTable w with
      | some mapped => mapped
      | none => "unknown"
    | none => "unknown"

/-! ## Treemap construction (overview page `buildTreemapData`) -/

/-- A JS value fed to `toMetricValue`.  A string is represented by its
`Number.parseFloat` result (`some q` when that result is a finite number,
`none` when it is `NaN` or infinite); a number is `num` when finite and `nan`
otherwise. -/
inductive MetricValue where
  | num (q : ℚ)
  | nan
  | str (parsed : Option ℚ)
  | null
  | undef
deriving DecidableEq, Repr

/-- `toMetricValue`: a finite number is kept; every other case — a non-finite
number, a string whose parse is not finite, `null`, `undefined` (both of which
stringify to `""`, whose parse is `NaN`) — is coerced to `0`. -/
def toMetricValue : MetricValue → ℚ
  | .num q => q
  | .nan => 0
  | .str (some q) => q
  | .str none => 0
  | .null => 0
  | .undef => 0

/-- A hotspot row as consumed by `buildTreemapData`. -/
structure Hotspot where
  file_path : String
  touches : MetricValue
  churn : MetricValue
  hotspot_score : MetricValue
deriving DecidableEq, Repr

/-- `TreemapNode`: `name`, optional accumulated `value`, children.  The
source's `undefined` children field and an empty children array behave
identically (the lazy `current.children = []` initialisation and d3's
treatment of an empty array), so both are the empty list. -/
inductive TreemapNode : Type where
  | node (name : String) (value : Option ℚ) (children : List TreemapNode)

/-- The `name` field. -/
def TreemapNode.name : TreemapNode → String
  | .node n _ _ => n

/-- The `value` field. -/
def TreemapNode.value : TreemapNode → Option ℚ
  | .node _ v _ => v

/-- The `children` field. -/
def TreemapNode.children : TreemapNode → List TreemapNode
  | .node _ _ c => c

/-- A fresh chain of nodes created when no existing child matches a path
segment: intermediate segments carry no value; the terminal segment receives
`(undefined ?? 0) + value`. -/
def freshChain (v : ℚ) (p : String) : List String → TreemapNode
  | [] => .node p (some v) []
  | q :: rest => .node p none [freshChain v q rest]

/-- `children.find((node) => node.name === part)`, keeping its position:
returns the children before the first match and, when a match exists, the
matched child together with the children after it. -/
def breakAtName (p : String) : List TreemapNode →
    List TreemapNode × Option (TreemapNode × List TreemapNode)
  | [] => ([], none)
  | c :: cs =>
    if c.name = p then ([], some (c, cs))
    else
      let r := breakAtName p cs
      (c :: r.1, r.2)

/-- The insertion loop of `buildTreemapData` for one entry, expressed over the
remaining path segments: look up the leading segment among the children
(`children.find`); if absent, create the segment chain and `push` it at the
end; if present, accumulate `(child.value ?? 0) + value` on it when the
segment is terminal, and otherwise descend into its children. -/
def insertPath (v : ℚ) : List String → List TreemapNode → List TreemapNode
  | [], cs => cs
  | p :: rest, cs =>
    match breakAtName p cs with
    | (_, none) => cs ++ [freshChain v p rest]
    | (before, some (c, after)) =>
      match c with
      | .node n val ccs =>
        match rest with
        | [] => before ++ (.node n (some (val.getD 0 + v)) ccs) :: after
        | q :: rest2 => before ++ (.node n val (insertPath v (q :: rest2) ccs)) :: after

/-- `path.split("/")` with a one-character separator, by direct recursion on
the characters (JS semantics: `"".split("/") = [""]`, separators at the ends
produce empty segments). -/
def splitSlashAux : List Char → List Char → List String
  | [], acc => [String.mk acc.reverse]
  | '/' :: rest, acc => String.mk acc.reverse :: splitSlashAux rest []
  | c :: rest, acc => splitSlashAux rest (c :: acc)

/-- `row.file_path.split("/").filter(Boolean)`: empty segments are falsy and
dropped. -/
def pathSegments (path : String) : List String :=
  (splitSlashAux path.data []).filter fun s => decide (s ≠ "")

/-- The weight an entry accumulates at its terminal segment:
`Math.max(1, touches + churn)`. -/
def rowWeight (row : Hotspot) : ℚ :=
  max 1 (toMetricValue row.touches + toMetricValue row.churn)

/-- One iteration of the `for (const row of rows)` loop: a row whose path is
empty after splitting and filtering is skipped; otherwise its segment chain is
inserted under the root. -/
def insertRow (root : TreemapNode) (row : Hotspot) : TreemapNode :=
  match pathSegments row.file_path with
  | [] => root
  | p :: rest =>
    match root with
    | .node n v cs => .node n v (insertPath (rowWeight row) (p :: rest) cs)

/-- `buildTreemapData`: fold every row into the shared root. -/
def buildTreemapData (rows : List Hotspot) : TreemapNode :=
  rows.foldl insertRow (.node "root" none [])

mutual

/-- Sum of all `value` fields in a tree (`value ?? 0` at each node). -/
def totalValue : TreemapNode → ℚ
  | .node _ v cs => v.getD 0 + totalValueList cs

/-- Sum of all `value` fields across a forest. -/
def totalValueList : List TreemapNode → ℚ
  | [] => 0
  | c :: cs => totalValue c + totalValueList cs

end

/-- Well-formed tree: at every level the children carry pairwise-distinct
names — the formal content of "two entries sharing a path prefix share the
same intermediate node" (a segment name is never duplicated among siblings). -/
inductive WFTree : TreemapNode → Prop where
  | mk : ∀ (n : String) (v : Option ℚ) (cs : List TreemapNode),
      (cs.map TreemapNode.name).Nodup →
      (∀ c ∈ cs, WFTree c) →
      WFTree (.node n v cs)

/-- Well-formed forest: distinct names at the top level, all members
well-formed. -/
def WFChildren (cs : List TreemapNode) : Prop :=
  (cs.map TreemapNode.name).Nodup ∧ ∀ c ∈ cs, WFTree c

/-- The weight one row contributes to the tree: nothing when its path is
degenerate, `max 1 (touches + churn)` otherwise. -/
def accumulatedWeight (row : Hotspot) : ℚ :=
  if pathSegments row.file_path = [] then 0 else rowWeight row

/-- Every stored value in the tree is at least `1`. -/
inductive ValuesAtLeastOne : TreemapNode → Prop where
  | mk : ∀ (n : String) (v : Option ℚ) (cs : List TreemapNode),
      (∀ w, v = some w → 1 ≤ w) →
      (∀ c ∈ cs, ValuesAtLeastOne c) →
      ValuesAtLeastOne (.node n v cs)

/-! ## Treemap hit test (`TreemapChart.handleMove`) -/

/-- A laid-out leaf rectangle (the geometric fields used by `handleMove`). -/
structure LeafRect where
  x0 : ℚ
  y0 : ℚ
  x1 : ℚ
  y1 : ℚ
deriving DecidableEq, Repr

/-- `x >= leaf.x0 && x <= leaf.x1 && y >= leaf.y0 && y <= leaf.y1`. -/
def leafContains (l : LeafRect) (x y : ℚ) : Bool :=
  decide (l.x0 ≤ x) && decide (x ≤ l.x1) && decide (l.y0 ≤ y) && decide (y ≤ l.y1)

/-- The point is strictly inside the rectangle (away from all four edges). -/
def StrictlyInside (l : LeafRect) (x y : ℚ) : Prop :=
  l.x0 < x ∧ x < l.x1 ∧ l.y0 < y ∧ y < l.y1

instance (l : LeafRect) (x y : ℚ) : Decidable (StrictlyInside l x y) :=
  inferInstanceAs (Decidable (_ ∧ _ ∧ _ ∧ _))

/-- `handleMove` after the pointer coordinate has been mapped into the layout
coordinate space: `nextIndex = leaves.findIndex(...)` (`-1` when no leaf
matches), then `setActiveIndex(nextIndex >= 0 ? nextIndex : null)`. -/
def handleMoveHit (leaves : List LeafRect) (x y : ℚ) : Option Nat :=
  let nextIndex : Int :=
    match leaves.findIdx? (fun l => leafContains l x y) with
    | some i => (i : Int)
    | none => -1
  if 0 ≤ nextIndex then some nextIndex.toNat else none

/-! ## Session store properties (claims C2, C3) -/

/-- Writing a full session and reading it back is the identity. -/
theorem loadAnalysisState_valid_toPatch (s : AnalysisState) :
    loadAnalysisState (some (.valid (toPatch s))) = s := rfl

/-- C3: for every state of the persisted slot that is absent or holds a
string that fails to parse as JSON, `loadAnalysisState` returns the default
session with all four fields null.  The embedding is a total function, so no
exception can escape (the source wraps `JSON.parse` in `try`/`catch`). -/
theorem load_missing_or_corrupt_slot_is_default :
    loadAnalysisState none = defaultState ∧
      ∀ raw : String, loadAnalysisState (some (.corrupt raw)) = defaultState :=
  ⟨rfl, fun _ => rfl⟩

/-- C2: starting from any slot whose load yields the default session, two
partial updates applied in order through `saveAnalysisState` leave the store
so that `loadAnalysisState` returns exactly the field-wise merge of the
default all-null session, `p1`, and `p2` — fields present in `p2` override
fields present in `p1`, which override the defaults (the merge is
`Option.getD` field by field). -/
theorem load_after_two_updates (slot : Option StoredDoc)
    (p1 p2 : AnalysisStatePatch) (h : loadAnalysisState slot = defaultState) :
    loadAnalysisState (saveAnalysisState (saveAnalysisState slot p1).2 p2).2 =
      mergeState (mergeState defaultState p1) p2 := by
  simp [saveAnalysisState, h, loadAnalysisState_valid_toPatch]

/-- Witness for C2 at a concrete corrupt slot and two concrete patches. -/
theorem load_after_two_updates_witness :
    loadAnalysisState (some (.corrupt "oops")) = defaultState ∧
      loadAnalysisState
          (saveAnalysisState
            (saveAnalysisState (some (.corrupt "oops"))
              ⟨some (some "r1"), some (some "run1"), none, none⟩).2
            ⟨none, some (some "run2"), some none, none⟩).2 =
        mergeState
          (mergeState defaultState ⟨some (some "r1"), some (some "run1"), none, none⟩)
          ⟨none, some (some "run2"), some none, none⟩ :=
  ⟨rfl, load_after_two_updates (some (.corrupt "oops")) _ _ rfl⟩

/-! ## Run lifecycle properties (claims C1, C4) -/

/-- A tracker whose interval has been cleared issues no further fetches. -/
theorem runPolls_timerOff (s : TrackerState) (h : s.timerOn = false) :
    ∀ rs : List (Except String AnalysisRun), (runPolls s rs).2 = 0 := by
  intro rs
  cases rs with
  | nil => rfl
  | cons r rest => simp [runPolls, h]

/-- C1: once a poll of an active subscription observes a terminal status
(`succeeded` or `failed`), the interval is cleared and no further status fetch
is issued for that subscription, whatever responses would still arrive; a new
subscription (for a different run id) starts from a fresh `subscribeTracker`
state.  The react-query variant enforces the same rule: its `refetchInterval`
callback returns `false` on a terminal status. -/
theorem terminal_status_stops_polling (s : TrackerState) (data : AnalysisRun)
    (rs : List (Except String AnalysisRun)) (pollMs : Nat)
    (hact : s.active = true) (hterm : data.status.isTerminal = true) :
    (poll s (.ok data)).timerOn = false ∧
      (runPolls (poll s (.ok data)) rs).2 = 0 ∧
      refetchIntervalDecision pollMs (some data.status) = none := by
  have htimer : (poll s (.ok data)).timerOn = false := by
    cases hst : data.status <;>
      simp [poll, hact, hst, RunStatus.isTerminal] at hterm ⊢
  exact ⟨htimer, runPolls_timerOff _ htimer rs, by simp [refetchIntervalDecision, hterm]⟩

/-- Witness for C1: a freshly subscribed tracker receives a `succeeded`
response; the one further response in flight is never fetched. -/
theorem terminal_status_stops_polling_witness :
    (subscribeTracker (some "run-1")).active = true ∧
      RunStatus.isTerminal .succeeded = true ∧
      ((poll (subscribeTracker (some "run-1"))
            (.ok ⟨"run-1", .succeeded, "t0", some "t1", some "t2", none⟩)).timerOn = false ∧
        (runPolls
            (poll (subscribeTracker (some "run-1"))
              (.ok ⟨"run-1", .succeeded, "t0", some "t1", some "t2", none⟩))
            [.ok ⟨"run-1", .succeeded, "t0", some "t1", some "t2", none⟩]).2 = 0 ∧
        refetchIntervalDecision 3000 (some .succeeded) = none) :=
  ⟨rfl, rfl, terminal_status_stops_polling _ _ _ _ rfl rfl⟩

/-- C4: after the effect cleanup that runs when the subscribed run id changes
or the subscription is torn down (`active = false`, `clearInterval`), the
resolution of a request still in flight for the superseded id is ignored —
the state is left untouched, so it can never overwrite the state now tracking
the new id — and the cancelled timer issues no further fetch. -/
theorem cleanup_cancels_and_ignores_stale (s : TrackerState)
    (r : Except String AnalysisRun) (rs : List (Except String AnalysisRun)) :
    poll (cleanupTracker s) r = cleanupTracker s ∧
      (runPolls (cleanupTracker s) rs).2 = 0 := by
  refine ⟨by simp [poll, cleanupTracker], runPolls_timerOff _ rfl rs⟩

/-! ## Hit-test properties (claim C9) -/

/-- `findIdx?` yields an in-bounds index of the first element satisfying the
predicate. -/
theorem findIdx?_some_spec {α : Type} (p : α → Bool) :
    ∀ (l : List α) (i : Nat), l.findIdx? p = some i →
      ∃ hi : i < l.length, p l[i] = true ∧
        ∀ j (hj : j < l.length), j < i → p l[j] = false := by
  intro l
  induction l with
  | nil => intro i h; simp [List.findIdx?] at h
  | cons a l ih =>
    intro i h
    rw [List.findIdx?_cons] at h
    by_cases hpa : p a = true
    · rw [if_pos hpa] at h
      have h0 : 0 = i := by injection h
      subst h0
      refine ⟨by simp, by simpa using hpa, ?_⟩
      intro j hj hji
      omega
    · rw [if_neg hpa, List.findIdx?_succ] at h
      obtain ⟨i2, hi2, hisucc⟩ : ∃ i2, l.findIdx? p = some i2 ∧ i = i2 + 1 := by
        cases hfl : l.findIdx? p with
        | none => rw [hfl] at h; simp at h
        | some k => rw [hfl] at h; simp at h; exact ⟨k, rfl, h.symm⟩
      subst hisucc
      obtain ⟨hlen, hp, hprev⟩ := ih i2 hi2
      refine ⟨by simpa using Nat.succ_lt_succ hlen, by simpa using hp, ?_⟩
      intro j hj hji
      cases j with
      | zero => simpa using Bool.of_not_eq_true hpa
      | succ j2 =>
        have hj2 : j2 < l.length := by simpa using hj
        simpa using hprev j2 hj2 (by omega)

/-- Conversely, an in-bounds index whose element satisfies the predicate while
all earlier elements fail it is what `findIdx?` returns. -/
theorem findIdx?_eq_some_of {α : Type} (p : α → Bool) :
    ∀ (l : List α) (i : Nat) (hi : i < l.length), p l[i] = true →
      (∀ j (hj : j < l.length), j < i → p l[j] = false) →
      l.findIdx? p = some i := by
  intro l
  induction l with
  | nil => intro i hi; simp at hi
  | cons a l ih =>
    intro i hi hp hprev
    rw [List.findIdx?_cons]
    cases i with
    | zero => rw [if_pos (by simpa using hp)]
    | succ i2 =>
      have hpa : p a = false := hprev 0 (by simp) (by omega)
      rw [if_neg (by simp [hpa]), List.findIdx?_succ]
      have hrec := ih i2 (by simpa using hi) (by simpa using hp)
        (fun j hj hji => by
          simpa using hprev (j + 1) (by simpa using Nat.succ_lt_succ hj) (by omega))
      rw [hrec]
      rfl

/-- `handleMoveHit` is exactly `findIndex` over the leaves. -/
theorem handleMoveHit_eq_findIdx? (leaves : List LeafRect) (x y : ℚ) :
    handleMoveHit leaves x y = leaves.findIdx? (fun l => leafContains l x y) := by
  unfold handleMoveHit
  cases h : leaves.findIdx? (fun l => leafContains l x y) with
  | none => simp
  | some i => simp

/-- C9: hit-testing returns the first leaf whose bounds contain the point,
with both edges inclusive, and `none` when no leaf contains it; in particular
a point strictly inside exactly one leaf rectangle yields that leaf, and a
point outside every rectangle yields `none` (the `none` direction of the
first conjunct). -/
theorem hit_test_first_inclusive_match (leaves : List LeafRect) (x y : ℚ) :
    (handleMoveHit leaves x y = none ↔ ∀ l ∈ leaves, leafContains l x y = false) ∧
      (∀ i, handleMoveHit leaves x y = some i →
        ∃ hi : i < leaves.length, leafContains leaves[i] x y = true ∧
          ∀ j (hj : j < leaves.length), j < i → leafContains leaves[j] x y = false) ∧
      (∀ i (hi : i < leaves.length), StrictlyInside leaves[i] x y →
        (∀ j (hj : j < leaves.length), j ≠ i → leafContains leaves[j] x y = false) →
        handleMoveHit leaves x y = some i) := by
  refine ⟨?_, ?_, ?_⟩
  · rw [handleMoveHit_eq_findIdx?]
    exact List.findIdx?_eq_none_iff
  · intro i h
    rw [handleMoveHit_eq_findIdx?] at h
    exact findIdx?_some_spec _ _ _ h
  · intro i hi hstrict hothers
    rw [handleMoveHit_eq_findIdx?]
    apply findIdx?_eq_some_of _ _ _ hi
    · obtain ⟨h1, h2, h3, h4⟩ := hstrict
      simp [leafContains, le_of_lt h1, le_of_lt h2, le_of_lt h3, le_of_lt h4]
    · intro j hj hji
      exact hothers j hj (by omega)

/-- Witness for C9: the pointer at `(15, 5)` lies strictly inside the second
of two side-by-side tiles and hit-testing selects it. -/
theorem hit_test_first_inclusive_match_witness :
    StrictlyInside (⟨10, 0, 20, 10⟩ : LeafRect) 15 5 ∧
      handleMoveHit [⟨0, 0, 10, 10⟩, ⟨10, 0, 20, 10⟩] 15 5 = some 1 :=
  ⟨by decide,
    (hit_test_first_inclusive_match [⟨0, 0, 10, 10⟩, ⟨10, 0, 20, 10⟩] 15 5).2.2 1
      (by decide) (by decide) (by decide)⟩

/-! ## Taxonomy properties (claim C7) -/

/-- C7 counterexample: the claim's else-chain — trust a *known* stored
category, else prefix-match, else `"unknown"` — fails on the code.  With
stored classification `"banana"` (not a known category) and message
`"fix(api): handle null"`, the code returns `"banana"` verbatim while the
claimed resolution returns the prefix match `"fix"`; and with message
`"constructor: tidy"` the prefix lookup leaks the inherited
`Object.prototype.constructor`, a non-string object, so the resolution is
not even a category string. -/
theorem taxonomy_resolution_counterexample :
    deriveClassification
        { message := "fix(api): handle null", classification := some "banana" } =
      JsVal.str "banana" ∧
      deriveClassificationClaimed
          { message := "fix(api): handle null", classification := some "banana" } = "fix" ∧
      ("banana" : String) ∉ knownCategories ∧
      ("banana" : String) ≠ "fix" ∧
      deriveClassification { message := "constructor: tidy", classification := none } =
        JsVal.obj := by
  refine ⟨by decide, by decide, by decide, by decide, by decide⟩

/-- C7 (amended): taxonomy resolution never throws and resolves every commit
row by: (1) returning the synonym-normalized stored value verbatim whenever
it differs from the string `"unknown"` — even when it is not a known
category, and including the non-string object a `"constructor"`/`"__proto__"`
stored value inherits from the prototype chain; else (2) returning the
conventional-commit prefix's table value when truthy — an own mapped
category, or the inherited prototype object for the keys above; else (3)
returning `"unknown"`.  The three stored-value cases and four prefix cases
are exhaustive.  In particular `"fix(api): handle null"` with no stored
classification resolves to `"fix"`, not `"unknown"`. -/
theorem taxonomy_resolution_amended (commit : CommitRow) :
    (∀ s : String, storedNormalizedVal commit = JsVal.str s → s ≠ "unknown" →
      deriveClassification commit = JsVal.str s) ∧
      (storedNormalizedVal commit = JsVal.obj → deriveClassification commit = JsVal.obj) ∧
      (storedNormalizedVal commit = JsVal.str "unknown" →
        (∀ w m : String, conventionalCommitType (toLowerString commit.message) = some w →
            recordLookup prefixClassificationTable w = .ownString m → m ≠ "" →
            deriveClassification commit = JsVal.str m) ∧
          (∀ w : String, conventionalCommitType (toLowerString commit.message) = some w →
            recordLookup prefixClassificationTable w = .inherited →
            deriveClassification commit = JsVal.obj) ∧
          (∀ w : String, conventionalCommitType (toLowerString commit.message) = some w →
            recordLookup prefixClassificationTable w = .absent →
            deriveClassification commit = JsVal.str "unknown") ∧
          (conventionalCommitType (toLowerString commit.message) = none →
            deriveClassification commit = JsVal.str "unknown")) ∧
      deriveClassification { message := "fix(api): handle null", classification := none } =
        JsVal.str "fix" := by
  refine ⟨?_, ?_, ?_, by decide⟩
  · intro s hs hne
    simp [deriveClassification, hs, hne]
  · intro h
    simp [deriveClassification, h]
  · intro h
    refine ⟨?_, ?_, ?_, ?_⟩
    · intro w m hw hm hmne
      simp [deriveClassification, h, hw, hm, hmne]
    · intro w hw hm
      simp [deriveClassification, h, hw, hm]
    · intro w hw hm
      simp [deriveClassification, h, hw, hm]
    · intro hc
      simp [deriveClassification, h, hc]

/-- Witness for C7 (amended): a stored legacy classification `"Bugfix"`
normalizes to `"fix"` and is returned verbatim. -/
theorem taxonomy_resolution_amended_witness :
    storedNormalizedVal { message := "feat: add", classification := some "Bugfix" } =
        JsVal.str "fix" ∧
      ("fix" : String) ≠ "unknown" ∧
      deriveClassification { message := "feat: add", classification := some "Bugfix" } =
        JsVal.str "fix" :=
  ⟨by decide, by decide,
    (taxonomy_resolution_amended _).1 "fix" (by decide) (by decide)⟩

/-! ## Percentile summary properties (claim C5) -/

/-- In a `≤`-sorted list, `getD` is monotone in the index. -/
theorem sorted_getD_le (l : List ℚ) (hs : l.Sorted (· ≤ ·)) (i j : Nat)
    (hij : i ≤ j) (hj : j < l.length) : l.getD i 0 ≤ l.getD j 0 := by
  have hi : i < l.length := lt_of_le_of_lt hij hj
  rw [List.getD_eq_getElem l 0 hi, List.getD_eq_getElem l 0 hj]
  rcases Nat.eq_or_lt_of_le hij with heq | hlt
  · subst heq
    exact le_refl _
  · have hfin : (⟨i, hi⟩ : Fin l.length) < ⟨j, hj⟩ := hlt
    simpa using hs.rel_get_of_lt hfin

/-- The nearest-rank index `⌊(n-1)·r⌋` stays within the sorted sample for a
ratio at most `1`. -/
theorem fragPick_index_le (l : List ℚ) (r : ℚ) (h1 : r ≤ 1) :
    (⌊((l.length - 1 : ℕ) : ℚ) * r⌋).toNat ≤ l.length - 1 := by
  have hc : (0 : ℚ) ≤ ((l.length - 1 : ℕ) : ℚ) := Nat.cast_nonneg _
  have hm : ((l.length - 1 : ℕ) : ℚ) * r ≤ ((l.length - 1 : ℕ) : ℚ) := by
    calc ((l.length - 1 : ℕ) : ℚ) * r ≤ ((l.length - 1 : ℕ) : ℚ) * 1 :=
          mul_le_mul_of_nonneg_left h1 hc
      _ = ((l.length - 1 : ℕ) : ℚ) := mul_one _
  have hf : ⌊((l.length - 1 : ℕ) : ℚ) * r⌋ ≤ ((l.length - 1 : ℕ) : ℤ) := by
    calc ⌊((l.length - 1 : ℕ) : ℚ) * r⌋ ≤ ⌊((l.length - 1 : ℕ) : ℚ)⌋ :=
          Int.floor_le_floor hm
      _ = ((l.length - 1 : ℕ) : ℤ) := Int.floor_natCast _
  omega

/-- Nearest-rank selection is monotone in the ratio on a sorted sample. -/
theorem fragPick_mono (l : List ℚ) (hs : l.Sorted (· ≤ ·)) (hpos : 0 < l.length)
    (r1 r2 : ℚ) (h12 : r1 ≤ r2) (h2 : r2 ≤ 1) :
    fragPick l r1 ≤ fragPick l r2 := by
  have hc : (0 : ℚ) ≤ ((l.length - 1 : ℕ) : ℚ) := Nat.cast_nonneg _
  have hm : ((l.length - 1 : ℕ) : ℚ) * r1 ≤ ((l.length - 1 : ℕ) : ℚ) * r2 :=
    mul_le_mul_of_nonneg_left h12 hc
  have hf : ⌊((l.length - 1 : ℕ) : ℚ) * r1⌋ ≤ ⌊((l.length - 1 : ℕ) : ℚ) * r2⌋ :=
    Int.floor_le_floor hm
  have hub := fragPick_index_le l r2 h2
  unfold fragPick
  exact sorted_getD_le l hs _ _ (by omega) (by omega)

/-- C5: for the empty sample the summary is the `null` sentinel rather than
an exception; for every non-empty sample the summary exists and its values —
selected by nearest-rank indexing `⌊(n-1)·ratio⌋` into the ascending-sorted
sample, as the definition of `fragilityStats` states — satisfy
`min ≤ median ≤ p90 ≤ max`. -/
theorem percentile_summary_spec (values : List ℚ) (st : FragilityStats) :
    (values = [] → fragilityStats values = none) ∧
      (values ≠ [] → (fragilityStats values).isSome = true) ∧
      (fragilityStats values = some st →
        st.min ≤ st.median ∧ st.median ≤ st.p90 ∧ st.p90 ≤ st.max) := by
  refine ⟨?_, ?_, ?_⟩
  · intro h
    subst h
    rfl
  · intro h
    simp [fragilityStats, List.length_eq_zero, h]
  · intro h
    by_cases hlen : values.length = 0
    · simp [fragilityStats, hlen] at h
    · simp only [fragilityStats, if_neg hlen, Option.some.injEq] at h
      subst h
      have hs : (values.insertionSort (· ≤ ·)).Sorted (· ≤ ·) :=
        List.sorted_insertionSort _ _
      have hpos : 0 < (values.insertionSort (· ≤ ·)).length := by
        rw [List.length_insertionSort]
        omega
      refine ⟨?_, ?_, ?_⟩
      · unfold fragPick
        apply sorted_getD_le _ hs 0 _ (Nat.zero_le _)
        have := fragPick_index_le (values.insertionSort (· ≤ ·)) (mkRat 1 2) (by decide)
        omega
      · exact fragPick_mono _ hs hpos _ _ (by decide) (by decide)
      · unfold fragPick
        apply sorted_getD_le _ hs _ _
          (fragPick_index_le (values.insertionSort (· ≤ ·)) (mkRat 9 10) (by decide))
        omega

/-- Witness for C5 on the sample `[3, 1, 2]`. -/
theorem percentile_summary_spec_witness :
    fragilityStats [3, 1, 2] = some ⟨3, 1, 3, 2, 2⟩ ∧
      ((⟨3, 1, 3, 2, 2⟩ : FragilityStats).min ≤ (⟨3, 1, 3, 2, 2⟩ : FragilityStats).median ∧
        (⟨3, 1, 3, 2, 2⟩ : FragilityStats).median ≤ (⟨3, 1, 3, 2, 2⟩ : FragilityStats).p90 ∧
        (⟨3, 1, 3, 2, 2⟩ : FragilityStats).p90 ≤ (⟨3, 1, 3, 2, 2⟩ : FragilityStats).max) :=
  ⟨by decide, (percentile_summary_spec [3, 1, 2] ⟨3, 1, 3, 2, 2⟩).2.2 (by decide)⟩

/-! ## Banding properties (claim C6) -/

/-- Values in `[0, 1]` fall in exactly one of the four half-open bands, so
the four band counts add up to the sample size. -/
theorem band_counts_sum (values : List ℚ) (h : ∀ v ∈ values, 0 ≤ v ∧ v ≤ 1) :
    (values.countP fun v => decide ((0 : ℚ) ≤ v ∧ v < mkRat 1 4)) +
        (values.countP fun v => decide (mkRat 1 4 ≤ v ∧ v < mkRat 1 2)) +
        (values.countP fun v => decide (mkRat 1 2 ≤ v ∧ v < mkRat 3 4)) +
        (values.countP fun v => decide (mkRat 3 4 ≤ v ∧ v < mkRat 101 100)) =
      values.length := by
  induction values with
  | nil => rfl
  | cons v vs ih =>
    have hv0 := (h v (List.mem_cons_self v vs)).1
    have hv1 := (h v (List.mem_cons_self v vs)).2
    have ihs := ih fun u hu => h u (List.mem_cons_of_mem v hu)
    have d12 : (mkRat 1 4 : ℚ) ≤ mkRat 1 2 := by decide
    have d23 : (mkRat 1 2 : ℚ) ≤ mkRat 3 4 := by decide
    have d4 : (1 : ℚ) < mkRat 101 100 := by decide
    simp only [List.countP_cons, List.length_cons, decide_eq_true_eq]
    rcases lt_or_le v (mkRat 1 4) with h14 | h14
    · rw [if_pos ⟨hv0, h14⟩, if_neg (by rintro ⟨ha, hb⟩; linarith),
        if_neg (by rintro ⟨ha, hb⟩; linarith), if_neg (by rintro ⟨ha, hb⟩; linarith)]
      omega
    · rcases lt_or_le v (mkRat 1 2) with h12 | h12
      · rw [if_neg (by rintro ⟨ha, hb⟩; linarith), if_pos ⟨h14, h12⟩,
          if_neg (by rintro ⟨ha, hb⟩; linarith), if_neg (by rintro ⟨ha, hb⟩; linarith)]
        omega
      · rcases lt_or_le v (mkRat 3 4) with h34 | h34
        · rw [if_neg (by rintro ⟨ha, hb⟩; linarith), if_neg (by rintro ⟨ha, hb⟩; linarith),
            if_pos ⟨h12, h34⟩, if_neg (by rintro ⟨ha, hb⟩; linarith)]
          omega
        · rw [if_neg (by rintro ⟨ha, hb⟩; linarith), if_neg (by rintro ⟨ha, hb⟩; linarith),
            if_neg (by rintro ⟨ha, hb⟩; linarith), if_pos ⟨h34, by linarith⟩]
          omega

/-- C6: every band result counts exactly the values `v` with
`band.min ≤ v < band.max` and reports `percent = 100·count/n`; when every
sample value lies in `[0, 1]` (the domain the four bands partition) the band
counts sum to the sample size. -/
theorem banding_spec (values : List ℚ) :
    (∀ b ∈ fragilityBands values,
      b.count = (values.filter fun v => decide (b.min ≤ v ∧ v < b.max)).length ∧
        b.percent = 100 * (b.count : ℚ) / (values.length : ℚ)) ∧
      ((∀ v ∈ values, 0 ≤ v ∧ v ≤ 1) →
        ((fragilityBands values).map FragilityBandResult.count).sum = values.length) := by
  constructor
  · intro b hb
    by_cases hlen : values.length = 0
    · simp [fragilityBands, hlen] at hb
    · simp only [fragilityBands, if_neg hlen, List.mem_map] at hb
      obtain ⟨band, hband, rfl⟩ := hb
      refine ⟨rfl, ?_⟩
      have hne : values.length ≠ 0 := hlen
      simp only [hne, ne_eq, not_false_eq_true, if_true]
      ring
  · intro h
    by_cases hlen : values.length = 0
    · have hnil : values = [] := List.length_eq_zero.mp hlen
      subst hnil
      rfl
    · have hsum := band_counts_sum values h
      simp only [List.countP_eq_length_filter] at hsum
      simp only [fragilityBands, if_neg hlen, fragilityBandDefs, List.map_cons, List.map_nil,
        List.sum_cons, List.sum_nil]
      omega

/-- Witness for C6 on the sample `[0, 1/2, 1]`, which lies in `[0, 1]`. -/
theorem banding_spec_witness :
    (∀ v ∈ ([0, mkRat 1 2, 1] : List ℚ), 0 ≤ v ∧ v ≤ 1) ∧
      ((fragilityBands [0, mkRat 1 2, 1]).map FragilityBandResult.count).sum = 3 :=
  ⟨by decide, (banding_spec [0, mkRat 1 2, 1]).2 (by decide)⟩


/-! ## Treemap construction properties (claims C8, C10) -/

/-- The head of a fresh chain is named after its leading segment. -/
theorem freshChain_name (v : ℚ) (p : String) (rest : List String) :
    (freshChain v p rest).name = p := by
  cases rest <;> rfl

/-- A fresh chain carries exactly the inserted weight. -/
theorem freshChain_total (v : ℚ) (p : String) :
    ∀ rest : List String, totalValue (freshChain v p rest) = v := by
  intro rest
  induction rest generalizing p with
  | nil => simp [freshChain, totalValue, totalValueList]
  | cons q rest ih => simp [freshChain, totalValue, totalValueList, ih]

/-- `totalValueList` distributes over append. -/
theorem totalValueList_append (a b : List TreemapNode) :
    totalValueList (a ++ b) = totalValueList a + totalValueList b := by
  induction a with
  | nil => simp [totalValueList]
  | cons c cs ih => simp [totalValueList, ih]; ring

/-- `insertPath` when no child carries the leading segment name: the fresh
chain is pushed at the end. -/
theorem insertPath_none_eq (v : ℚ) (p : String) (rest : List String)
    (cs before : List TreemapNode) (h : breakAtName p cs = (before, none)) :
    insertPath v (p :: rest) cs = cs ++ [freshChain v p rest] := by
  rw [insertPath.eq_2, h]

/-- `insertPath` at a terminal segment with a matching child: the weight is
accumulated on that child. -/
theorem insertPath_some_nil_eq (v : ℚ) (p : String) (cs before : List TreemapNode)
    (n : String) (val : Option ℚ) (ccs after : List TreemapNode)
    (h : breakAtName p cs = (before, some (.node n val ccs, after))) :
    insertPath v [p] cs = before ++ (.node n (some (val.getD 0 + v)) ccs) :: after := by
  rw [insertPath.eq_2, h]

/-- `insertPath` at a non-terminal segment with a matching child: descend into
its children. -/
theorem insertPath_some_cons_eq (v : ℚ) (p q : String) (rest2 : List String)
    (cs before : List TreemapNode) (n : String) (val : Option ℚ)
    (ccs after : List TreemapNode)
    (h : breakAtName p cs = (before, some (.node n val ccs, after))) :
    insertPath v (p :: q :: rest2) cs =
      before ++ (.node n val (insertPath v (q :: rest2) ccs)) :: after := by
  rw [insertPath.eq_2, h]

/-- When the lookup finds no child, the scanned children are returned
unchanged and no child carries the segment name. -/
theorem breakAtName_none_spec (p : String) :
    ∀ cs before : List TreemapNode, breakAtName p cs = (before, none) →
      before = cs ∧ ∀ c ∈ cs, c.name ≠ p := by
  intro cs
  induction cs with
  | nil =>
    intro before h
    simp only [breakAtName, Prod.mk.injEq] at h
    exact ⟨h.1.symm, by simp⟩
  | cons c cs ih =>
    intro before h
    by_cases hc : c.name = p
    · simp [breakAtName, hc] at h
    · cases hbk : breakAtName p cs with
      | mk b2 o2 =>
        simp only [breakAtName, if_neg hc, hbk, Prod.mk.injEq] at h
        obtain ⟨h1, h2⟩ := h
        subst h2
        obtain ⟨h3, h4⟩ := ih b2 hbk
        subst h3
        refine ⟨h1.symm, ?_⟩
        intro d hd
        rcases List.mem_cons.mp hd with rfl | hd2
        · exact hc
        · exact h4 d hd2

/-- When the lookup finds a child, it is the first child with the segment
name and the children decompose around it. -/
theorem breakAtName_some_spec (p : String) :
    ∀ (cs before : List TreemapNode) (c : TreemapNode) (after : List TreemapNode),
      breakAtName p cs = (before, some (c, after)) →
      cs = before ++ c :: after ∧ c.name = p := by
  intro cs
  induction cs with
  | nil => intro before c after h; simp [breakAtName] at h
  | cons d cs ih =>
    intro before c after h
    by_cases hd : d.name = p
    · simp only [breakAtName, if_pos hd, Prod.mk.injEq, Option.some.injEq] at h
      obtain ⟨h1, h2, h3⟩ := h
      subst h1
      subst h2
      subst h3
      exact ⟨rfl, hd⟩
    · cases hbk : breakAtName p cs with
      | mk b2 o2 =>
        simp only [breakAtName, if_neg hd, hbk, Prod.mk.injEq] at h
        obtain ⟨h1, h2⟩ := h
        subst h2
        obtain ⟨hcs, hname⟩ := ih b2 c after hbk
        subst h1
        exact ⟨by rw [hcs, List.cons_append], hname⟩

/-- Inserting an entry with a non-empty segment chain adds exactly its weight
to the forest total. -/
theorem insertPath_total (v : ℚ) :
    ∀ (parts : List String) (cs : List TreemapNode), parts ≠ [] →
      totalValueList (insertPath v parts cs) = totalValueList cs + v := by
  intro parts
  induction parts with
  | nil => intro cs h; exact absurd rfl h
  | cons p rest ih =>
    intro cs _
    cases hbk : breakAtName p cs with
    | mk before found =>
      cases found with
      | none =>
        rw [insertPath_none_eq v p rest cs before hbk, totalValueList_append]
        simp only [totalValueList]
        rw [freshChain_total]
        ring
      | some hit =>
        obtain ⟨c, after⟩ := hit
        obtain ⟨hcs, hname⟩ := breakAtName_some_spec p cs before c after hbk
        cases c with
        | node n val ccs =>
          cases rest with
          | nil =>
            rw [insertPath_some_nil_eq v p cs before n val ccs after hbk, hcs,
              totalValueList_append, totalValueList_append]
            simp only [totalValueList, totalValue, Option.getD_some]
            ring
          | cons q rest2 =>
            rw [insertPath_some_cons_eq v p q rest2 cs before n val ccs after hbk, hcs,
              totalValueList_append, totalValueList_append]
            simp only [totalValueList, totalValue, ih ccs (by simp)]
            ring

/-- One loop iteration adds exactly the row's accumulated weight to the tree
total. -/
theorem insertRow_total (t : TreemapNode) (row : Hotspot) :
    totalValue (insertRow t row) = totalValue t + accumulatedWeight row := by
  unfold insertRow accumulatedWeight
  cases hps : pathSegments row.file_path with
  | nil => simp
  | cons p rest =>
    cases t with
    | node n v cs =>
      simp only [totalValue, insertPath_total (rowWeight row) (p :: rest) cs (by simp)]
      rw [if_neg (List.cons_ne_nil p rest)]
      ring

/-- Folding rows over `insertRow` accumulates all row weights. -/
theorem foldl_insertRow_total :
    ∀ (rows : List Hotspot) (t : TreemapNode),
      totalValue (rows.foldl insertRow t) =
        totalValue t + (rows.map accumulatedWeight).sum := by
  intro rows
  induction rows with
  | nil => intro t; simp
  | cons row rows ih =>
    intro t
    simp only [List.foldl_cons, List.map_cons, List.sum_cons, ih, insertRow_total]
    ring

/-- Inserting a chain headed by `p` leaves the sibling names unchanged when a
child named `p` exists, and appends `p` otherwise. -/
theorem insertPath_names (v : ℚ) (p : String) (rest : List String)
    (cs : List TreemapNode) :
    (insertPath v (p :: rest) cs).map TreemapNode.name =
      if p ∈ cs.map TreemapNode.name then cs.map TreemapNode.name
      else cs.map TreemapNode.name ++ [p] := by
  cases hbk : breakAtName p cs with
  | mk before found =>
    cases found with
    | none =>
      obtain ⟨_, hnone⟩ := breakAtName_none_spec p cs before hbk
      have hnotmem : p ∉ cs.map TreemapNode.name := by
        intro hmem
        obtain ⟨c, hc, hcp⟩ := List.mem_map.mp hmem
        exact hnone c hc hcp
      rw [insertPath_none_eq v p rest cs before hbk, if_neg hnotmem]
      simp [freshChain_name]
    | some hit =>
      obtain ⟨c, after⟩ := hit
      obtain ⟨hcs, hname⟩ := breakAtName_some_spec p cs before c after hbk
      have hmem : p ∈ cs.map TreemapNode.name := by
        rw [hcs]
        simp only [List.map_append, List.map_cons, List.mem_append, List.mem_cons]
        exact Or.inr (Or.inl hname.symm)
      cases c with
      | node n val ccs =>
        rw [if_pos hmem]
        cases rest with
        | nil =>
          rw [insertPath_some_nil_eq v p cs before n val ccs after hbk, hcs]
          simp [TreemapNode.name]
        | cons q rest2 =>
          rw [insertPath_some_cons_eq v p q rest2 cs before n val ccs after hbk, hcs]
          simp [TreemapNode.name]

/-- A fresh chain is well-formed. -/
theorem freshChain_WF (v : ℚ) (p : String) :
    ∀ rest : List String, WFTree (freshChain v p rest) := by
  intro rest
  induction rest generalizing p with
  | nil => exact ⟨p, some v, [], by simp, by simp⟩
  | cons q rest ih =>
    refine ⟨p, none, [freshChain v q rest], by simp, ?_⟩
    intro c hc
    rw [List.mem_singleton.mp hc]
    exact ih q

/-- Inversion for `WFTree`. -/
theorem WFChildren_of_WFTree (n : String) (v : Option ℚ) (cs : List TreemapNode)
    (h : WFTree (.node n v cs)) : WFChildren cs := by
  cases h with
  | mk _ _ _ h1 h2 => exact ⟨h1, h2⟩

/-- Insertion preserves well-formedness of a forest: names stay pairwise
distinct at every level, so an entry sharing a path prefix reuses the
existing intermediate node instead of duplicating it. -/
theorem insertPath_WF (v : ℚ) :
    ∀ (parts : List String) (cs : List TreemapNode),
      WFChildren cs → WFChildren (insertPath v parts cs) := by
  intro parts
  induction parts with
  | nil => intro cs h; exact h
  | cons p rest ih =>
    intro cs hwf
    obtain ⟨hnodup, hmem⟩ := hwf
    cases hbk : breakAtName p cs with
    | mk before found =>
      cases found with
      | none =>
        obtain ⟨-, hnone⟩ := breakAtName_none_spec p cs before hbk
        rw [insertPath_none_eq v p rest cs before hbk]
        constructor
        · simp only [List.map_append, List.map_cons, List.map_nil, freshChain_name]
          rw [List.nodup_append]
          refine ⟨hnodup, by simp, ?_⟩
          intro a ha hb
          rw [List.mem_singleton.mp hb] at ha
          obtain ⟨c, hc, hcp⟩ := List.mem_map.mp ha
          exact hnone c hc hcp
        · intro c hc
          rcases List.mem_append.mp hc with hc1 | hc2
          · exact hmem c hc1
          · rw [List.mem_singleton.mp hc2]
            exact freshChain_WF v p rest
      | some hit =>
        obtain ⟨c, after⟩ := hit
        obtain ⟨hcs, hname⟩ := breakAtName_some_spec p cs before c after hbk
        cases c with
        | node n val ccs =>
          have hwfc := WFChildren_of_WFTree n val ccs (hmem _ (by rw [hcs]; simp))
          obtain ⟨hccs_nodup, hccs_mem⟩ := hwfc
          have hnames : ∀ newc : TreemapNode, newc.name = n →
              ((before ++ newc :: after).map TreemapNode.name).Nodup := by
            intro newc hn
            have heq : (before ++ newc :: after).map TreemapNode.name =
                (before ++ TreemapNode.node n val ccs :: after).map TreemapNode.name := by
              simp only [List.map_append, List.map_cons]
              rw [hn]
              rfl
            rw [heq, ← hcs]
            exact hnodup
          have hmem2 : ∀ d, d ∈ before ∨ d ∈ after → WFTree d := by
            intro d hd
            apply hmem
            rw [hcs]
            rcases hd with h1 | h2
            · exact List.mem_append.mpr (Or.inl h1)
            · exact List.mem_append.mpr (Or.inr (List.mem_cons_of_mem _ h2))
          cases rest with
          | nil =>
            rw [insertPath_some_nil_eq v p cs before n val ccs after hbk]
            constructor
            · exact hnames _ rfl
            · intro d hd
              rcases List.mem_append.mp hd with h1 | h2
              · exact hmem2 d (Or.inl h1)
              · rcases List.mem_cons.mp h2 with rfl | h3
                · exact ⟨n, _, ccs, hccs_nodup, hccs_mem⟩
                · exact hmem2 d (Or.inr h3)
          | cons q rest2 =>
            have hrec := ih ccs ⟨hccs_nodup, hccs_mem⟩
            rw [insertPath_some_cons_eq v p q rest2 cs before n val ccs after hbk]
            constructor
            · exact hnames _ rfl
            · intro d hd
              rcases List.mem_append.mp hd with h1 | h2
              · exact hmem2 d (Or.inl h1)
              · rcases List.mem_cons.mp h2 with rfl | h3
                · exact ⟨n, val, _, hrec.1, hrec.2⟩
                · exact hmem2 d (Or.inr h3)

/-- One loop iteration preserves well-formedness of the tree. -/
theorem insertRow_WF (t : TreemapNode) (row : Hotspot) (h : WFTree t) :
    WFTree (insertRow t row) := by
  unfold insertRow
  cases hps : pathSegments row.file_path with
  | nil => exact h
  | cons p rest =>
    cases t with
    | node n v cs =>
      obtain ⟨hnodup, hmem⟩ := WFChildren_of_WFTree n v cs h
      have hres := insertPath_WF (rowWeight row) (p :: rest) cs ⟨hnodup, hmem⟩
      exact ⟨n, v, _, hres.1, hres.2⟩

/-- C8: tree construction (a) keeps sibling names pairwise distinct at every
level of the one shared root, so two entries sharing a path prefix reuse the
same intermediate node rather than duplicating it, (b) skips every row whose
path is empty after splitting on `/` and dropping empty segments, (c)
accumulates weight only at the terminal leaf segment of each entry, so the
tree total equals the sum of the inserted entry weights and the explicit
single-entry tree carries its weight only at the leaf, with value-less
intermediate grouping nodes. -/
theorem treemap_construction_spec (rows : List Hotspot) (root : TreemapNode)
    (row : Hotspot) :
    WFTree (buildTreemapData rows) ∧
      (pathSegments row.file_path = [] → insertRow root row = root) ∧
      totalValue (buildTreemapData rows) = (rows.map accumulatedWeight).sum ∧
      buildTreemapData [⟨"a/b.ts", .num 2, .num 3, .num 0⟩] =
        .node "root" none [.node "a" none [.node "b.ts" (some 5) []]] := by
  refine ⟨?_, ?_, ?_, rfl⟩
  · unfold buildTreemapData
    have hroot : WFTree (.node "root" none []) := ⟨"root", none, [], by simp, by simp⟩
    generalize TreemapNode.node "root" none [] = t at hroot ⊢
    induction rows generalizing t with
    | nil => exact hroot
    | cons r rows ih => exact ih (insertRow t r) (insertRow_WF t r hroot)
  · intro h
    unfold insertRow
    rw [h]
  · rw [buildTreemapData, foldl_insertRow_total]
    simp [totalValue, totalValueList]

/-- Witness for C8: a row whose path collapses to no segments is skipped. -/
theorem treemap_construction_spec_witness :
    pathSegments "//" = [] ∧
      insertRow (.node "root" none []) ⟨"//", .num 7, .num 8, .num 9⟩ =
        .node "root" none [] :=
  ⟨by decide,
    (treemap_construction_spec [] (.node "root" none [])
      ⟨"//", .num 7, .num 8, .num 9⟩).2.1 (by decide)⟩

/-- Inversion for `ValuesAtLeastOne`. -/
theorem valuesAL1_inv (n : String) (v : Option ℚ) (cs : List TreemapNode)
    (h : ValuesAtLeastOne (.node n v cs)) :
    (∀ w, v = some w → 1 ≤ w) ∧ ∀ c ∈ cs, ValuesAtLeastOne c := by
  cases h with
  | mk _ _ _ h1 h2 => exact ⟨h1, h2⟩

/-- A fresh chain built from a weight `≥ 1` stores only values `≥ 1`. -/
theorem freshChain_values (v : ℚ) (hv : 1 ≤ v) (p : String) :
    ∀ rest : List String, ValuesAtLeastOne (freshChain v p rest) := by
  intro rest
  induction rest generalizing p with
  | nil =>
    refine ⟨p, some v, [], ?_, by simp⟩
    intro w hw
    injection hw with hw2
    rw [← hw2]
    exact hv
  | cons q rest ih =>
    refine ⟨p, none, [freshChain v q rest], by simp, ?_⟩
    intro c hc
    rw [List.mem_singleton.mp hc]
    exact ih q

/-- Inserting a weight `≥ 1` preserves the all-values-`≥ 1` invariant. -/
theorem insertPath_values (v : ℚ) (hv : 1 ≤ v) :
    ∀ (parts : List String) (cs : List TreemapNode),
      (∀ c ∈ cs, ValuesAtLeastOne c) →
      ∀ c ∈ insertPath v parts cs, ValuesAtLeastOne c := by
  intro parts
  induction parts with
  | nil => intro cs h; exact h
  | cons p rest ih =>
    intro cs hmem
    cases hbk : breakAtName p cs with
    | mk before found =>
      cases found with
      | none =>
        rw [insertPath_none_eq v p rest cs before hbk]
        intro c hc
        rcases List.mem_append.mp hc with hc1 | hc2
        · exact hmem c hc1
        · rw [List.mem_singleton.mp hc2]
          exact freshChain_values v hv p rest
      | some hit =>
        obtain ⟨c, after⟩ := hit
        obtain ⟨hcs, hname⟩ := breakAtName_some_spec p cs before c after hbk
        cases c with
        | node n val ccs =>
          obtain ⟨hval, hccs⟩ := valuesAL1_inv n val ccs (hmem _ (by rw [hcs]; simp))
          have hmem2 : ∀ d, d ∈ before ∨ d ∈ after → ValuesAtLeastOne d := by
            intro d hd
            apply hmem
            rw [hcs]
            rcases hd with h1 | h2
            · exact List.mem_append.mpr (Or.inl h1)
            · exact List.mem_append.mpr (Or.inr (List.mem_cons_of_mem _ h2))
          cases rest with
          | nil =>
            rw [insertPath_some_nil_eq v p cs before n val ccs after hbk]
            intro d hd
            rcases List.mem_append.mp hd with h1 | h2
            · exact hmem2 d (Or.inl h1)
            · rcases List.mem_cons.mp h2 with rfl | h3
              · refine ⟨n, some (val.getD 0 + v), ccs, ?_, hccs⟩
                intro w hw
                injection hw with hw2
                rw [← hw2]
                cases val with
                | none => simpa using hv
                | some w0 =>
                  have h1w := hval w0 rfl
                  simp only [Option.getD_some]
                  linarith
              · exact hmem2 d (Or.inr h3)
          | cons q rest2 =>
            rw [insertPath_some_cons_eq v p q rest2 cs before n val ccs after hbk]
            intro d hd
            rcases List.mem_append.mp hd with h1 | h2
            · exact hmem2 d (Or.inl h1)
            · rcases List.mem_cons.mp h2 with rfl | h3
              · exact ⟨n, val, _, hval, ih ccs hccs⟩
              · exact hmem2 d (Or.inr h3)

/-- One loop iteration preserves the all-values-`≥ 1` invariant. -/
theorem insertRow_values (t : TreemapNode) (row : Hotspot)
    (h : ValuesAtLeastOne t) : ValuesAtLeastOne (insertRow t row) := by
  unfold insertRow
  cases hps : pathSegments row.file_path with
  | nil => exact h
  | cons p rest =>
    cases t with
    | node n v cs =>
      obtain ⟨hval, hmem⟩ := valuesAL1_inv n v cs h
      exact ⟨n, v, _, hval,
        insertPath_values (rowWeight row) (le_max_left 1 _) (p :: rest) cs hmem⟩

/-- Every accumulated weight is non-negative. -/
theorem accumulatedWeight_nonneg (row : Hotspot) : 0 ≤ accumulatedWeight row := by
  unfold accumulatedWeight
  by_cases h : pathSegments row.file_path = []
  · rw [if_pos h]
  · rw [if_neg h]
    have : (1 : ℚ) ≤ rowWeight row := le_max_left 1 _
    linarith

/-- C10 counterexample: the claim "the layout total is never zero for a
non-empty batch" fails on the code — a non-empty batch whose single row has
an empty path builds a tree of total weight zero. -/
theorem treemap_nonzero_total_counterexample :
    ([(⟨"", .num 0, .num 0, .num 0⟩ : Hotspot)] ≠ []) ∧
      totalValue (buildTreemapData [⟨"", .num 0, .num 0, .num 0⟩]) = 0 :=
  ⟨by simp, rfl⟩

/-- C10 (amended): non-numeric measures are coerced to `0`, every row's
accumulated leaf value `max 1 (touches + churn)` is at least `1`, every value
stored in the constructed tree is at least `1`, and the tree total is at
least `1` for every batch containing at least one row whose path is non-empty
after trimming. -/
theorem leaf_weight_at_least_one (rows : List Hotspot) (row : Hotspot) :
    ValuesAtLeastOne (buildTreemapData rows) ∧
      (toMetricValue (.str none) = 0 ∧ toMetricValue .null = 0 ∧
        toMetricValue .undef = 0 ∧ toMetricValue .nan = 0) ∧
      1 ≤ rowWeight row ∧
      (row ∈ rows → pathSegments row.file_path ≠ [] →
        1 ≤ totalValue (buildTreemapData rows)) := by
  refine ⟨?_, ⟨rfl, rfl, rfl, rfl⟩, le_max_left 1 _, ?_⟩
  · unfold buildTreemapData
    have hroot : ValuesAtLeastOne (.node "root" none []) :=
      ⟨"root", none, [], by simp, by simp⟩
    generalize TreemapNode.node "root" none [] = t at hroot ⊢
    induction rows generalizing t with
    | nil => exact hroot
    | cons r rows ih => exact ih (insertRow t r) (insertRow_values t r hroot)
  · intro hmem hpath
    rw [buildTreemapData, foldl_insertRow_total]
    have hw : accumulatedWeight row = rowWeight row := by
      unfold accumulatedWeight
      rw [if_neg hpath]
    have hle : accumulatedWeight row ≤ (rows.map accumulatedWeight).sum :=
      List.single_le_sum (fun x hx => by
          obtain ⟨r, _, rfl⟩ := List.mem_map.mp hx
          exact accumulatedWeight_nonneg r) _
        (List.mem_map.mpr ⟨row, hmem, rfl⟩)
    have h1 : (1 : ℚ) ≤ accumulatedWeight row := by
      rw [hw]
      exact le_max_left 1 _
    have hroot0 : totalValue (.node "root" none []) = 0 := by
      simp [totalValue, totalValueList]
    rw [hroot0]
    linarith

/-- Witness for C10 (amended) on a batch of one row with path `"a"`. -/
theorem leaf_weight_at_least_one_witness :
    ((⟨"a", .str none, .null, .num 0⟩ : Hotspot) ∈
        [(⟨"a", .str none, .null, .num 0⟩ : Hotspot)]) ∧
      pathSegments "a" ≠ [] ∧
      1 ≤ totalValue (buildTreemapData [⟨"a", .str none, .null, .num 0⟩]) :=
  ⟨by simp, by decide,
    (leaf_weight_at_least_one [⟨"a", .str none, .null, .num 0⟩]
      ⟨"a", .str none, .null, .num 0⟩).2.2.2 (by simp) (by decide)⟩

end CodeArchaeology
